import Mathlib

/-!
Verification development for the epping log parsing pipeline of
`scripts/client.py` (functions `str_to_ns`, `parse`, `end_client_epping`).

Strings are modelled as `List Char`.  Wall-clock timestamps are exact
nanosecond counts (`Nat`), relative timestamps are `Int` (the Python code
subtracts `numpy` timedeltas, which can go negative), and RTT values are
exact rationals (`Rat`): every concrete RTT value appearing in the claims
(`12.5`, `1000`, products thereof) is exactly representable in binary
floating point, so the rational model agrees with the IEEE arithmetic the
Python code performs on them.
-/

deriving instance DecidableEq for Except

/-- Python's `\s` character class, restricted to the ASCII whitespace
characters (the epping capture is ASCII text). -/
def isPySpace (c : Char) : Bool :=
  c = ' ' || c = '\t' || c = '\n' || c = '\r' || c = '\x0b' || c = '\x0c'

/-- Value of a decimal digit string, most significant digit first:
the integer that Python's `int(...)` / `np.timedelta64(str, unit)`
reads from a digit-only string. -/
def digitsVal (l : List Char) : Nat :=
  l.foldl (fun a c => a * 10 + (c.toNat - 48)) 0

/-- Reading a nonempty all-digit string as a nonnegative integer; `none`
on the empty string or on any non-digit character (Python raises
`ValueError` there). -/
def parseDigits (l : List Char) : Option Nat :=
  if l.isEmpty then none
  else if l.all Char.isDigit then some (digitsVal l) else none

/-- Python's `str.ljust(9, '0')`: right-pad with `'0'` to length 9
(strings already of length `≥ 9` are returned unchanged). -/
def ljust9 (l : List Char) : List Char :=
  l ++ List.replicate (9 - l.length) '0'

/-- Python's `str.split(sep)` for a single-character separator:
splits on every occurrence, keeping empty fields. -/
def splitOnChar (sep : Char) : List Char → List (List Char)
  | [] => [[]]
  | c :: rest =>
    if c = sep then
      [] :: splitOnChar sep rest
    else
      match splitOnChar sep rest with
      | [] => [[c]]
      | p :: ps => (c :: p) :: ps

/-- `str_to_ns` from `scripts/client.py`:
`h, m, s = time_str.split(":")` (exactly three fields or `ValueError`),
`int_s, ns = s.split(".")` (exactly two fields or `ValueError`),
then `np.timedelta64` of each of `h`, `m`, `int_s`, `ns.ljust(9, '0')`
with units hour/minute/second/nanosecond, summed to a nanosecond count.
A `ValueError` anywhere is modelled as `none`. -/
def str_to_ns (s : List Char) : Option Nat :=
  match splitOnChar ':' s with
  | [h, m, sec] =>
    match splitOnChar '.' sec with
    | [int_s, ns] =>
      match parseDigits h, parseDigits m, parseDigits int_s, parseDigits (ljust9 ns) with
      | some hv, some mv, some sv, some nv =>
        some (hv * 3600 * 1000000000 + mv * 60 * 1000000000 + sv * 1000000000 + nv)
      | _, _, _, _ => none
    | _ => none
  | _ => none

/-- Python's `float(...)` on the plain unsigned decimal literals that occur
as epping RTT fields (`"12"`, `"12.5"`, `".5"`, `"12."`); any other string
is `none` (`ValueError`).  Sign, exponent and special forms never occur in
this pipeline and are not modelled. -/
def parseFloat (l : List Char) : Option Rat :=
  match splitOnChar '.' l with
  | [ip] => (parseDigits ip).map (fun n => (n : Rat))
  | [ip, fp] =>
    if ip.isEmpty && fp.isEmpty then none
    else if ip.all Char.isDigit && fp.all Char.isDigit then
      some ((digitsVal ip : Rat) + (digitsVal fp : Rat) / ((10 : Rat) ^ fp.length))
    else none
  | _ => none

/-!
## The compiled pattern

`end_client_epping` compiles, for flow `i` and destination port `dports[i]`,

  `^(\d{2}:\d{2}:\d{2}\.\d{9})\s(.+?)\sms\s(.+?)\sms\s` +
  `PROTO\s192.168.2.102:.*\+` + re.escape("192.168.2.103:" + str(dports[i])) + `$`

with `PROTO` = `UDP` in vxlan mode and `TCP` otherwise, and runs
`expr.search(line)` on every line of the capture.  The functions below are a
direct executable embedding of this fixed pattern under Python `re`
semantics, specialised to its constructs:

* `^` anchors at position 0 (no MULTILINE), so `search` can only match from
  the start of the line;
* `$` matches at the end of the string or just before one final newline —
  `dropFinalNl` strips that optional final newline once, up front (every
  other element of the pattern that could consume a newline is a `\s`
  followed by at least one mandatory non-newline literal, so a final
  newline can never be consumed by the body of the pattern);
* `\d`, `\s` are the ASCII digit / whitespace classes;
* `.` matches any character except `'\n'`; the three unescaped dots of
  `192.168.2.102` are therefore single-character wildcards;
* `(.+?)` is a lazy group: the shortest nonempty candidate whose
  continuation (the whole rest of the pattern) matches wins, candidates
  being tried left to right — `findG2`/`findG3` implement exactly this
  backtracking order;
* `.*\+target$` holds of a remainder iff it is `mid ++ '+' :: target` with
  `mid` free of newlines (`dotStarPlusTarget`); greediness of `.*` cannot
  affect match existence or any capture.
-/

/-- One literal-string element of the pattern: `stripPre p l` consumes the
exact characters `p` from the front of `l`. -/
def stripPre : List Char → List Char → Option (List Char)
  | [], l => some l
  | _ :: _, [] => none
  | p :: ps, c :: cs => if c = p then stripPre ps cs else none

/-- One `\s` element: consumes a single whitespace character and returns it
with the remainder. -/
def spaceTok : List Char → Option (Char × List Char)
  | [] => none
  | c :: cs => if isPySpace c then some (c, cs) else none

/-- One `.` wildcard element: consumes a single character that is not a
newline. -/
def anyNonNl : List Char → Option (Char × List Char)
  | [] => none
  | c :: cs => if c = '\n' then none else some (c, cs)

/-- `\d{2}`: two ASCII digits. -/
def digit2 : List Char → Option (Char × Char × List Char)
  | a :: b :: cs => if a.isDigit && b.isDigit then some (a, b, cs) else none
  | _ => none

/-- `\d{n}`: exactly `n` ASCII digits, returned as a list. -/
def digitN : Nat → List Char → Option (List Char × List Char)
  | 0, l => some ([], l)
  | _ + 1, [] => none
  | n + 1, c :: cs =>
    if c.isDigit then (digitN n cs).map (fun p => (c :: p.1, p.2)) else none

/-- The leading group `(\d{2}:\d{2}:\d{2}\.\d{9})`: on success returns the
18-character capture and the remainder of the line. -/
def matchTs (l : List Char) : Option (List Char × List Char) :=
  (digit2 l).bind fun p1 =>
    (stripPre [':'] p1.2.2).bind fun r2 =>
      (digit2 r2).bind fun p2 =>
        (stripPre [':'] p2.2.2).bind fun r4 =>
          (digit2 r4).bind fun p3 =>
            (stripPre ['.'] p3.2.2).bind fun r6 =>
              (digitN 9 r6).map fun p4 =>
                (p1.1 :: p1.2.1 :: ':' :: p2.1 :: p2.2.1 :: ':' ::
                  p3.1 :: p3.2.1 :: '.' :: p4.1, p4.2)

/-- The separator `\sms\s`: returns the two whitespace characters and the
remainder. -/
def sepMs (l : List Char) : Option (Char × Char × List Char) :=
  (spaceTok l).bind fun q1 =>
    (stripPre ['m', 's'] q1.2).bind fun r2 =>
      (spaceTok r2).map fun q2 => (q1.1, q2.1, q2.2)

/-- `.*\+target$` on the remainder `l` (the final newline having already
been stripped): true iff `l = mid ++ '+' :: target` for some newline-free
`mid`. -/
def dotStarPlusTarget (target : List Char) : List Char → Bool
  | [] => false
  | c :: cs => (c == '+' && cs == target) || (c != '\n' && dotStarPlusTarget target cs)

/-- The source segment `192.168.2.102:` of the pattern, whose three dots are
unescaped and hence single-character wildcards. -/
def srcSeg (l : List Char) : Option (List Char) :=
  (stripPre ['1', '9', '2'] l).bind fun r1 =>
    (anyNonNl r1).bind fun q1 =>
      (stripPre ['1', '6', '8'] q1.2).bind fun r2 =>
        (anyNonNl r2).bind fun q2 =>
          (stripPre ['2'] q2.2).bind fun r3 =>
            (anyNonNl r3).bind fun q3 =>
              stripPre ['1', '0', '2', ':'] q3.2

/-- The deterministic tail of the pattern after the second `\sms\s`:
`PROTO\s192.168.2.102:.*\+target$`. -/
def tailM (proto target : List Char) (l : List Char) : Bool :=
  match stripPre proto l with
  | none => false
  | some r1 =>
    match spaceTok r1 with
    | none => false
    | some q =>
      match srcSeg q.2 with
      | none => false
      | some r2 => dotStarPlusTarget target r2

/-- Continuation check after a candidate for group 3: `\sms\s` then the
deterministic tail. -/
def checkAfterG3 (proto target : List Char) (l : List Char) : Bool :=
  match sepMs l with
  | none => false
  | some q => tailM proto target q.2.2

/-- The lazy group 3 `(.+?)`: the shortest nonempty newline-free prefix
whose continuation matches. -/
def findG3 (proto target : List Char) : List Char → Option (List Char)
  | [] => none
  | c :: cs =>
    if c = '\n' then none
    else if checkAfterG3 proto target cs then some [c]
    else (findG3 proto target cs).map (fun g => c :: g)

/-- Continuation check after a candidate for group 2: `\sms\s`, then the
lazy search for group 3. -/
def checkAfterG2 (proto target : List Char) (l : List Char) : Option (List Char) :=
  match sepMs l with
  | none => none
  | some q => findG3 proto target q.2.2

/-- The lazy group 2 `(.+?)`: the shortest nonempty newline-free prefix
whose continuation matches; returns (group 2, group 3). -/
def findG2 (proto target : List Char) : List Char → Option (List Char × List Char)
  | [] => none
  | c :: cs =>
    if c = '\n' then none
    else
      match checkAfterG2 proto target cs with
      | some g3 => some ([c], g3)
      | none => (findG2 proto target cs).map (fun q => (c :: q.1, q.2))

/-- `$`-handling: Python `$` (no MULTILINE) matches at the end of the
string or just before one newline at the very end, so matching the whole
pattern against `line` is matching the newline-stripped line to its end. -/
def dropFinalNl (l : List Char) : List Char :=
  if l.getLast? = some '\n' then l.dropLast else l

/-- `expr.search(line)` for the compiled flow pattern: `none` when no match,
otherwise the three capture groups (timestamp string, first ms field,
second ms field). -/
def eppingMatch (proto target line : List Char) :
    Option (List Char × List Char × List Char) :=
  match matchTs (dropFinalNl line) with
  | none => none
  | some (g1, r1) =>
    match r1 with
    | [] => none
    | w :: r2 =>
      if isPySpace w then
        (findG2 proto target r2).map (fun q => (g1, q.1, q.2))
      else none

/-!
## The scanner `parse` and the per-flow loop `end_client_epping`
-/

/-- The two ways a line that matched the pattern can make `parse` raise a
`ValueError` in Python: a malformed timestamp in `str_to_ns(match.group(1))`
(the spec's FormatError) or a non-numeric first ms field in
`float(match.group(2))`. -/
inductive ParseErr where
  | tsFormat
  | rttFormat
deriving DecidableEq

/-- The loop body of `parse` from `scripts/client.py`, with the mutable
locals made explicit: `anchor` is `initial_timestamp_ns` (initialised to
the integer 0, which doubles as the "unset" sentinel) and `acc` is
`samples` (accumulated in reverse).  For each line: skip it unless the
pattern matches; convert group 1 with `str_to_ns`; if the anchor equals 0,
set it to this timestamp; convert group 2 with `float` and multiply by
1000; append `(timestamp - anchor, rtt_us)`. -/
def parseGo (m : List Char → Option (List Char × List Char × List Char)) :
    List (List Char) → Nat → List (Int × Rat) → Except ParseErr (List (Int × Rat))
  | [], _, acc => .ok acc.reverse
  | l :: ls, anchor, acc =>
    match m l with
    | none => parseGo m ls anchor acc
    | some (g1, g2, _) =>
      match str_to_ns g1 with
      | none => .error .tsFormat
      | some t =>
        let anchor2 := if anchor = 0 then t else anchor
        match parseFloat g2 with
        | none => .error .rttFormat
        | some r => parseGo m ls anchor2 (((t : Int) - (anchor2 : Int), r * 1000) :: acc)

/-- `parse(f, expr)` from `scripts/client.py`: scan all lines with the
compiled matcher `m` and return the `(relative timestamp, rtt_us)` samples
in scan order; an uncaught `ValueError` is `.error`. -/
def parse (m : List Char → Option (List Char × List Char × List Char))
    (lines : List (List Char)) : Except ParseErr (List (Int × Rat)) :=
  parseGo m lines 0 []

/-- The three transport modes of the client script: `--vxlan`, `--native`,
and the default (host). -/
inductive Mode where
  | vxlan
  | native
  | host
deriving DecidableEq

/-- The protocol tag compiled into the pattern: `UDP` in the
`if args.vxlan:` branch, `TCP` in the `else:` branch (which handles both
native and host mode — the `elif args.native:` branch is commented out in
the source). -/
def protoOf : Mode → List Char
  | .vxlan => ['U', 'D', 'P']
  | _ => ['T', 'C', 'P']

/-- `dports = [5200, 5201, 5202, 5203, 5204, 5205, 5206, 5207]`. -/
def dports : List Nat := [5200, 5201, 5202, 5203, 5204, 5205, 5206, 5207]

/-- `target = "192.168.2.103" + ":" + str(dports[i])`; it is passed through
`re.escape`, so every one of its characters is matched literally. -/
def targetOf (port : Nat) : List Char :=
  ("192.168.2.103:").toList ++ Nat.toDigits 10 port

/-- The compiled matcher for a given mode and destination port. -/
def mkExpr (mode : Mode) (port : Nat) :
    List Char → Option (List Char × List Char × List Char) :=
  eppingMatch (protoOf mode) (targetOf port)

/-- Outcome of `end_client_epping`: the per-flow map on success, the
`return None` taken when a flow has no samples, the uncaught `IndexError`
on `dports[i]` for `i ≥ 8`, and an uncaught `ValueError` escaping
`parse`. -/
inductive EppingOutcome where
  | ok (m : List (List Int × List Rat))
  | noSamples
  | indexError
  | err (e : ParseErr)
deriving DecidableEq

/-- The `for i in range(0, num_flows)` loop of `end_client_epping`, with
fuel `num_flows - i`: for each flow, rewind and scan the whole capture
with the flow's pattern; `return None` as soon as a flow has zero samples;
otherwise record `(x, y) = unzip(samples)` for the flow.  Accessing
`dports[i]` for `i ≥ len(dports)` raises `IndexError`, which the source
does not guard against. -/
def clientLoop (mode : Mode) (lines : List (List Char)) :
    Nat → Nat → List (List Int × List Rat) → EppingOutcome
  | 0, _, acc => .ok acc.reverse
  | k + 1, i, acc =>
    if _h : i < dports.length then
      match parse (mkExpr mode (dports.getD i 0)) lines with
      | .error e => .err e
      | .ok samples =>
        if samples.isEmpty then .noSamples
        else
          clientLoop mode lines k (i + 1)
            ((samples.map Prod.fst, samples.map Prod.snd) :: acc)
    else .indexError

/-- `end_client_epping(epping_p, epping_f, num_flows)` restricted to its
parsing pipeline: the file handle is the line buffer `lines` (re-scanned
from the start for every flow), the mode comes from the command-line
flags, and the returned value is the flow-indexed map of unzipped sample
sequences (flow `i`'s entry at position `i`). -/
def end_client_epping (mode : Mode) (lines : List (List Char))
    (num_flows : Nat) : EppingOutcome :=
  clientLoop mode lines num_flows 0 []

/-!
## Derived views used to state the theorems

`extractRecs` is the sequence of `(absolute timestamp, float(group 2))`
records of the matching lines, in scan order, with the same error behavior
as `parse`; `relativize` is the anchor-subtraction pass `parse` applies to
it.  The lemma `parse_eq` below proves `parse` equal to their composition.
-/

/-- The `(str_to_ns(group 1), float(group 2))` records of the matching
lines, in scan order. -/
def extractRecs (m : List Char → Option (List Char × List Char × List Char)) :
    List (List Char) → Except ParseErr (List (Nat × Rat))
  | [] => .ok []
  | l :: ls =>
    match m l with
    | none => extractRecs m ls
    | some (g1, g2, _) =>
      match str_to_ns g1 with
      | none => .error .tsFormat
      | some t =>
        match parseFloat g2 with
        | none => .error .rttFormat
        | some r => (extractRecs m ls).map (fun rs => (t, r) :: rs)

/-- The anchor-subtraction pass of `parse`, starting from anchor value
`a` (0 = the "unset" sentinel): each record re-sets the anchor if it is
still 0 and emits `(timestamp - anchor, rtt * 1000)`. -/
def relativize : Nat → List (Nat × Rat) → List (Int × Rat)
  | _, [] => []
  | a, (t, r) :: rest =>
    let a2 := if a = 0 then t else a
    ((t : Int) - (a2 : Int), r * 1000) :: relativize a2 rest

/-!
## Structure lemmas about `parse`
-/

theorem parseGo_eq (m : List Char → Option (List Char × List Char × List Char)) :
    ∀ (ls : List (List Char)) (a : Nat) (acc : List (Int × Rat)),
    parseGo m ls a acc =
      (extractRecs m ls).map (fun recs => acc.reverse ++ relativize a recs) := by
  intro ls
  induction ls with
  | nil => intro a acc; simp [parseGo, extractRecs, Except.map, relativize]
  | cons l ls ih =>
    intro a acc
    cases hm : m l with
    | none => simp only [parseGo, extractRecs, hm]; exact ih a acc
    | some g =>
      obtain ⟨g1, g2, g3⟩ := g
      cases ht : str_to_ns g1 with
      | none => simp [parseGo, extractRecs, hm, ht, Except.map]
      | some t =>
        cases hr : parseFloat g2 with
        | none => simp [parseGo, extractRecs, hm, ht, hr, Except.map]
        | some r =>
          simp only [parseGo, extractRecs, hm, ht, hr]
          rw [ih]
          cases he : extractRecs m ls with
          | error e => simp [Except.map]
          | ok rs => simp [Except.map, relativize]

/-- `parse` is the anchor-subtraction pass applied to the record sequence
of the matching lines. -/
theorem parse_eq (m : List Char → Option (List Char × List Char × List Char))
    (lines : List (List Char)) :
    parse m lines = (extractRecs m lines).map (relativize 0) := by
  have h := parseGo_eq m lines 0 []
  simpa [parse] using h

/-- Once the anchor holds a nonzero value it is never re-assigned, and
every later sample is relative to it. -/
theorem relativize_ne_zero :
    ∀ (a : Nat) (recs : List (Nat × Rat)), a ≠ 0 →
    relativize a recs = recs.map (fun p => ((p.1 : Int) - (a : Int), p.2 * 1000)) := by
  intro a recs ha
  induction recs with
  | nil => simp [relativize]
  | cons p rest ih =>
    obtain ⟨t, r⟩ := p
    simp [relativize, if_neg ha, ih]

theorem relativize_map_snd :
    ∀ (a : Nat) (recs : List (Nat × Rat)),
    (relativize a recs).map Prod.snd = recs.map (fun p => p.2 * 1000) := by
  intro a recs
  induction recs generalizing a with
  | nil => simp [relativize]
  | cons p rest ih =>
    obtain ⟨t, r⟩ := p
    simp [relativize, ih]

/-- Concrete capture lines used in counterexamples and witnesses. -/
def lineZ0 : List Char :=
  ("00:00:00.000000000 1 ms 1 ms TCP 192.168.2.102:1+192.168.2.103:5200\n").toList

def lineZ1 : List Char :=
  ("00:00:00.000000001 1 ms 1 ms TCP 192.168.2.102:1+192.168.2.103:5200\n").toList

/-- C1 counterexample: both lines match the flow-0 pattern, their absolute
timestamps are 0 ns and 1 ns, so under the claim the anchor is 0 and the
second sample's relative timestamp should be `1 - 0 = 1`; the code yields
0 instead, because the value 0 doubles as the "anchor unset" sentinel and
the anchor is re-assigned on the second matching line. -/
theorem claim_C1_cex :
    (mkExpr Mode.host (dports.getD 0 0) lineZ0).map (fun g => str_to_ns g.1)
      = some (some 0) ∧
    (mkExpr Mode.host (dports.getD 0 0) lineZ1).map (fun g => str_to_ns g.1)
      = some (some 1) ∧
    (parse (mkExpr Mode.host (dports.getD 0 0)) [lineZ0, lineZ1]).map
      (fun s => s.map Prod.fst) = .ok [0, 0] ∧
    (0 : Int) ≠ 1 - 0 := by
  exact ⟨by decide, by decide, by decide, by decide⟩

/-- C1 (amended): provided the first matching line's normalized timestamp
is nonzero, the anchor is set exactly once, to that timestamp, and every
appended sample's relative timestamp is that sample's timestamp minus the
anchor. -/
theorem claim_C1 (m : List Char → Option (List Char × List Char × List Char))
    (lines : List (List Char)) (t0 : Nat) (r0 : Rat) (rest : List (Nat × Rat))
    (h : extractRecs m lines = .ok ((t0, r0) :: rest)) (h0 : t0 ≠ 0) :
    parse m lines =
      .ok (((0 : Int), r0 * 1000) ::
        rest.map (fun p => ((p.1 : Int) - (t0 : Int), p.2 * 1000))) := by
  rw [parse_eq, h]
  simp [Except.map, relativize, relativize_ne_zero t0 rest h0]

theorem claim_C1_witness :
    parse (mkExpr Mode.host (dports.getD 0 0)) [lineZ1, lineZ1] =
      .ok (((0 : Int), ((1 : Nat) : Rat) * 1000) ::
        [((1 : Nat), ((1 : Nat) : Rat))].map
          (fun p => ((p.1 : Int) - ((1 : Nat) : Int), p.2 * 1000))) := by
  exact claim_C1 (mkExpr Mode.host (dports.getD 0 0)) [lineZ1, lineZ1]
    1 ((1 : Nat) : Rat) [(1, ((1 : Nat) : Rat))] (by rfl) (by decide)

/-- C5: the first sample of any successful scan has relative timestamp 0:
on the first matching line the anchor always still holds the sentinel 0,
so it is assigned that line's timestamp before the subtraction. -/
theorem claim_C5 (m : List Char → Option (List Char × List Char × List Char))
    (lines : List (List Char)) (s0 : Int × Rat) (rest : List (Int × Rat))
    (h : parse m lines = .ok (s0 :: rest)) : s0.1 = 0 := by
  rw [parse_eq] at h
  cases he : extractRecs m lines with
  | error e => rw [he] at h; simp [Except.map] at h
  | ok recs =>
    rw [he] at h
    simp only [Except.map] at h
    cases recs with
    | nil => simp [relativize] at h
    | cons p rest2 =>
      obtain ⟨t, r⟩ := p
      simp only [relativize] at h
      injection h with h4
      injection h4 with h2 h3
      rw [← h2]
      simp

/-- Concrete evaluation of `parse` on the single line `lineZ1`. -/
theorem parse_single_lineZ1 :
    parse (mkExpr Mode.host (dports.getD 0 0)) [lineZ1] =
      .ok [((0 : Int), ((1 : Nat) : Rat) * 1000)] := by
  rw [parse_eq]
  have he : extractRecs (mkExpr Mode.host (dports.getD 0 0)) [lineZ1] =
      .ok [(1, ((1 : Nat) : Rat))] := by rfl
  rw [he]
  simp [Except.map, relativize]

theorem claim_C5_witness :
    Prod.fst ((0 : Int), ((1 : Nat) : Rat) * 1000) = 0 :=
  claim_C5 (mkExpr Mode.host (dports.getD 0 0)) [lineZ1] _ [] parse_single_lineZ1

/-!
## Claim C2: the timestamp normalizer
-/

theorem splitOnChar_no_sep (sep : Char) :
    ∀ (l : List Char), (∀ c ∈ l, c ≠ sep) → splitOnChar sep l = [l] := by
  intro l
  induction l with
  | nil => intro _; rfl
  | cons c cs ih =>
    intro hmem
    have hc : c ≠ sep := hmem c (by simp)
    have hrest := ih (fun x hx => hmem x (by simp [hx]))
    simp [splitOnChar, if_neg hc, hrest]

theorem splitOnChar_append (sep : Char) :
    ∀ (l1 l2 : List Char), (∀ c ∈ l1, c ≠ sep) →
    splitOnChar sep (l1 ++ sep :: l2) = l1 :: splitOnChar sep l2 := by
  intro l1
  induction l1 with
  | nil => intro l2 _; simp [splitOnChar]
  | cons c cs ih =>
    intro l2 hmem
    have hc : c ≠ sep := hmem c (by simp)
    have hrest := ih l2 (fun x hx => hmem x (by simp [hx]))
    simp only [List.cons_append, splitOnChar, if_neg hc]
    rw [List.append_eq, hrest]

theorem isDigit_ne_colon (c : Char) (h : c.isDigit = true) : c ≠ ':' := by
  intro he
  subst he
  exact absurd h (by decide)

theorem isDigit_ne_dot (c : Char) (h : c.isDigit = true) : c ≠ '.' := by
  intro he
  subst he
  exact absurd h (by decide)

theorem parseDigits_of_digits :
    ∀ (l : List Char), l ≠ [] → (∀ c ∈ l, c.isDigit = true) →
    parseDigits l = some (digitsVal l) := by
  intro l hne hd
  cases l with
  | nil => exact absurd rfl hne
  | cons c cs =>
    have hall : (c :: cs).all Char.isDigit = true := by
      rw [List.all_eq_true]
      exact hd
    simp [parseDigits, hall]

/-- The general shape equation for `str_to_ns` on a well-formed timestamp
string, with the result in the source's unit-by-unit form. -/
theorem str_to_ns_shape (h1 h2 m1 m2 s1 s2 : Char) (fs : List Char)
    (d1 : h1.isDigit = true) (d2 : h2.isDigit = true)
    (d3 : m1.isDigit = true) (d4 : m2.isDigit = true)
    (d5 : s1.isDigit = true) (d6 : s2.isDigit = true)
    (hne : fs ≠ []) (hfs : ∀ c ∈ fs, c.isDigit = true) :
    str_to_ns (h1 :: h2 :: ':' :: m1 :: m2 :: ':' :: s1 :: s2 :: '.' :: fs) =
      some (digitsVal [h1, h2] * 3600 * 1000000000 + digitsVal [m1, m2] * 60 * 1000000000 +
        digitsVal [s1, s2] * 1000000000 + digitsVal (ljust9 fs)) := by
  have hc3 : splitOnChar ':' (s1 :: s2 :: '.' :: fs) = [s1 :: s2 :: '.' :: fs] := by
    refine splitOnChar_no_sep ':' _ ?_
    intro c hc
    simp only [List.mem_cons] at hc
    rcases hc with rfl | rfl | rfl | hc
    · exact isDigit_ne_colon _ d5
    · exact isDigit_ne_colon _ d6
    · decide
    · exact isDigit_ne_colon _ (hfs _ hc)
  have hc2 : splitOnChar ':' (m1 :: m2 :: ':' :: s1 :: s2 :: '.' :: fs) =
      [m1, m2] :: [s1 :: s2 :: '.' :: fs] := by
    have := splitOnChar_append ':' [m1, m2] (s1 :: s2 :: '.' :: fs) (by
      intro c hc
      simp only [List.mem_cons] at hc
      rcases hc with rfl | rfl | hc
      · exact isDigit_ne_colon _ d3
      · exact isDigit_ne_colon _ d4
      · simp at hc)
    rw [hc3] at this
    exact this
  have hc1 : splitOnChar ':' (h1 :: h2 :: ':' :: m1 :: m2 :: ':' :: s1 :: s2 :: '.' :: fs) =
      [[h1, h2], [m1, m2], s1 :: s2 :: '.' :: fs] := by
    have := splitOnChar_append ':' [h1, h2] (m1 :: m2 :: ':' :: s1 :: s2 :: '.' :: fs) (by
      intro c hc
      simp only [List.mem_cons] at hc
      rcases hc with rfl | rfl | hc
      · exact isDigit_ne_colon _ d1
      · exact isDigit_ne_colon _ d2
      · simp at hc)
    rw [hc2] at this
    exact this
  have hdot : splitOnChar '.' (s1 :: s2 :: '.' :: fs) = [[s1, s2], fs] := by
    have := splitOnChar_append '.' [s1, s2] fs (by
      intro c hc
      simp only [List.mem_cons] at hc
      rcases hc with rfl | rfl | hc
      · exact isDigit_ne_dot _ d5
      · exact isDigit_ne_dot _ d6
      · simp at hc)
    rw [splitOnChar_no_sep '.' fs (fun c hc => isDigit_ne_dot _ (hfs _ hc))] at this
    exact this
  have hph : parseDigits [h1, h2] = some (digitsVal [h1, h2]) :=
    parseDigits_of_digits _ (by simp) (by
      intro c hc
      simp only [List.mem_cons] at hc
      rcases hc with rfl | rfl | hc
      · exact d1
      · exact d2
      · simp at hc)
  have hpm : parseDigits [m1, m2] = some (digitsVal [m1, m2]) :=
    parseDigits_of_digits _ (by simp) (by
      intro c hc
      simp only [List.mem_cons] at hc
      rcases hc with rfl | rfl | hc
      · exact d3
      · exact d4
      · simp at hc)
  have hps : parseDigits [s1, s2] = some (digitsVal [s1, s2]) :=
    parseDigits_of_digits _ (by simp) (by
      intro c hc
      simp only [List.mem_cons] at hc
      rcases hc with rfl | rfl | hc
      · exact d5
      · exact d6
      · simp at hc)
  have hpf : parseDigits (ljust9 fs) = some (digitsVal (ljust9 fs)) := by
    refine parseDigits_of_digits _ ?_ ?_
    · cases fs with
      | nil => exact absurd rfl hne
      | cons c cs => simp [ljust9]
    · intro c hc
      simp only [ljust9, List.mem_append] at hc
      rcases hc with hc | hc
      · exact hfs _ hc
      · rw [List.eq_of_mem_replicate hc]
        decide
  simp [str_to_ns, hc1, hdot, hph, hpm, hps, hpf]

/-- C2: for every well-formed `HH:MM:SS.f` string (fractional part 1-9
digits), `str_to_ns` returns `(HH*3600 + MM*60 + SS) * 10^9` plus the
fraction right-padded with zeros to width 9 read as an integer; in
particular `01:02:03.123456789` gives `((1*3600+2*60+3))*10^9 + 123456789`
and `00:00:00.5` gives `500000000`. -/
theorem claim_C2 :
    (∀ (h1 h2 m1 m2 s1 s2 : Char) (fs : List Char),
      h1.isDigit = true → h2.isDigit = true → m1.isDigit = true → m2.isDigit = true →
      s1.isDigit = true → s2.isDigit = true →
      fs ≠ [] → fs.length ≤ 9 → (∀ c ∈ fs, c.isDigit = true) →
      str_to_ns (h1 :: h2 :: ':' :: m1 :: m2 :: ':' :: s1 :: s2 :: '.' :: fs) =
        some ((digitsVal [h1, h2] * 3600 + digitsVal [m1, m2] * 60 + digitsVal [s1, s2])
          * 1000000000 + digitsVal (ljust9 fs))) ∧
    str_to_ns (("01:02:03.123456789").toList) =
      some (((1 * 3600 + 2 * 60 + 3) * 1000000000) + 123456789) ∧
    str_to_ns (("00:00:00.5").toList) = some 500000000 := by
  refine ⟨?_, by decide, by decide⟩
  intro h1 h2 m1 m2 s1 s2 fs d1 d2 d3 d4 d5 d6 hne _ hfs
  rw [str_to_ns_shape h1 h2 m1 m2 s1 s2 fs d1 d2 d3 d4 d5 d6 hne hfs]
  exact congrArg some (by ring)

/-!
## Claim C3: monotonicity and nonnegativity
-/

theorem relativize_cons_zero (t : Nat) (r : Rat) (rest : List (Nat × Rat)) :
    relativize 0 ((t, r) :: rest) =
      ((t : Int) - (t : Int), r * 1000) :: relativize t rest := by
  simp [relativize]

/-- The anchor-subtraction pass preserves nonnegativity and monotonicity of
a non-decreasing absolute timeline, even across the sentinel degeneracy:
while the anchor still holds 0 every emitted offset is 0, and once it holds
a nonzero first value every later offset is a difference above it. -/
theorem relativize_nonneg_mono :
    ∀ (recs : List (Nat × Rat)), (recs.map Prod.fst).Pairwise (· ≤ ·) →
    (∀ x ∈ (relativize 0 recs).map Prod.fst, 0 ≤ x) ∧
    ((relativize 0 recs).map Prod.fst).Pairwise (· ≤ ·) := by
  intro recs
  induction recs with
  | nil => intro _; simp [relativize]
  | cons p rest ih =>
    obtain ⟨t, r⟩ := p
    intro hpw
    simp only [List.map_cons, List.pairwise_cons] at hpw
    obtain ⟨hle, hpw2⟩ := hpw
    rw [relativize_cons_zero]
    by_cases ht : t = 0
    · subst ht
      obtain ⟨hn, hp⟩ := ih hpw2
      constructor
      · intro x hx
        rw [List.map_cons, List.mem_cons] at hx
        rcases hx with rfl | hx
        · simp
        · exact hn x hx
      · rw [List.map_cons, List.pairwise_cons]
        refine ⟨fun y hy => ?_, hp⟩
        have := hn y hy
        omega
    · rw [relativize_ne_zero t rest ht]
      have hfst : (rest.map (fun p => ((p.1 : Int) - (t : Int), p.2 * 1000))).map Prod.fst
          = rest.map (fun p => (p.1 : Int) - (t : Int)) := by
        rw [List.map_map]
        rfl
      rw [List.map_cons, hfst]
      constructor
      · intro x hx
        rw [List.mem_cons] at hx
        rcases hx with rfl | hx
        · simp
        · rw [List.mem_map] at hx
          obtain ⟨q, hq, rfl⟩ := hx
          have h1 : t ≤ q.1 := hle q.1 (List.mem_map_of_mem Prod.fst hq)
          have h2 : (t : Int) ≤ (q.1 : Int) := by exact_mod_cast h1
          omega
      · rw [List.pairwise_cons]
        constructor
        · intro y hy
          rw [List.mem_map] at hy
          obtain ⟨q, hq, rfl⟩ := hy
          have h1 : t ≤ q.1 := hle q.1 (List.mem_map_of_mem Prod.fst hq)
          have h2 : (t : Int) ≤ (q.1 : Int) := by exact_mod_cast h1
          omega
        · rw [List.pairwise_map]
          rw [List.pairwise_map] at hpw2
          refine hpw2.imp ?_
          intro a b hab
          have : (a.1 : Int) ≤ (b.1 : Int) := by exact_mod_cast hab
          omega

/-- C3: if the matching lines carry non-decreasing wall-clock timestamps,
the samples returned by `parse` have relative timestamps that are all
`≥ 0` and non-decreasing in scan order. -/
theorem claim_C3 (m : List Char → Option (List Char × List Char × List Char))
    (lines : List (List Char)) (recs : List (Nat × Rat)) (s : List (Int × Rat))
    (hrecs : extractRecs m lines = .ok recs)
    (hs : parse m lines = .ok s)
    (hmono : List.Chain' (· ≤ ·) (recs.map Prod.fst)) :
    (∀ x ∈ s.map Prod.fst, 0 ≤ x) ∧ List.Chain' (· ≤ ·) (s.map Prod.fst) := by
  rw [parse_eq, hrecs] at hs
  simp only [Except.map] at hs
  injection hs with hs2
  subst hs2
  have hpw : (recs.map Prod.fst).Pairwise (· ≤ ·) := List.chain'_iff_pairwise.mp hmono
  obtain ⟨hn, hp⟩ := relativize_nonneg_mono recs hpw
  exact ⟨hn, hp.chain'⟩

def lineZ2 : List Char :=
  ("00:00:00.000000002 2 ms 2 ms TCP 192.168.2.102:1+192.168.2.103:5200\n").toList

theorem claim_C3_witness :
    (∀ x ∈ ([((0 : Int), ((1 : Nat) : Rat) * 1000),
        ((1 : Int), ((2 : Nat) : Rat) * 1000)].map Prod.fst), 0 ≤ x) ∧
    List.Chain' (· ≤ ·) ([((0 : Int), ((1 : Nat) : Rat) * 1000),
        ((1 : Int), ((2 : Nat) : Rat) * 1000)].map Prod.fst) :=
  claim_C3 (mkExpr Mode.host (dports.getD 0 0)) [lineZ1, lineZ2]
    [(1, ((1 : Nat) : Rat)), (2, ((2 : Nat) : Rat))] _ (by rfl) (by rfl)
    (by simp [List.chain'_cons])

/-!
## Claims C6 and C7: line filtering, and the RTT value
-/

theorem parseGo_filter (m : List Char → Option (List Char × List Char × List Char)) :
    ∀ (ls : List (List Char)) (a : Nat) (acc : List (Int × Rat)),
    parseGo m (ls.filter fun l => (m l).isSome) a acc = parseGo m ls a acc := by
  intro ls
  induction ls with
  | nil => intro a acc; rfl
  | cons l ls ih =>
    intro a acc
    cases hm : m l with
    | none =>
      rw [List.filter_cons]
      simp only [hm, Option.isSome_none]
      simp only [parseGo, hm]
      exact ih a acc
    | some g =>
      obtain ⟨g1, g2, g3⟩ := g
      rw [List.filter_cons]
      simp only [hm, Option.isSome_some, if_pos]
      simp only [parseGo, hm]
      cases ht : str_to_ns g1 with
      | none => rfl
      | some t =>
        cases hr : parseFloat g2 with
        | none => rfl
        | some r => exact ih _ _

def lineNoise : List Char := ("noise").toList

def lineP1 : List Char :=
  ("00:00:00.000000002 2 ms 2 ms TCP 192.168.2.102:1+192.168.2.103:5201\n").toList

/-- C6: the result of `parse` depends only on the subsequence of matching
lines — non-matching lines are skipped without error and without effect —
and scans of the same buffer with different flow patterns are independent:
each invocation is a pure function of the buffer and the pattern, starting
from its own unset anchor.  Concretely, on a 3-line buffer whose second
line matches only flow 0's pattern and whose third line matches only flow
1's pattern, the flow-0 scan yields exactly the one sample of its line and
the flow-1 scan yields exactly the (different) one sample of its line. -/
theorem claim_C6 :
    (∀ (m : List Char → Option (List Char × List Char × List Char))
      (lines : List (List Char)),
      parse m (lines.filter fun l => (m l).isSome) = parse m lines) ∧
    (mkExpr Mode.host (dports.getD 0 0)) lineZ1 ≠ none ∧
    (mkExpr Mode.host (dports.getD 0 0)) lineP1 = none ∧
    (mkExpr Mode.host (dports.getD 0 0)) lineNoise = none ∧
    (mkExpr Mode.host (dports.getD 1 0)) lineP1 ≠ none ∧
    (mkExpr Mode.host (dports.getD 1 0)) lineZ1 = none ∧
    parse (mkExpr Mode.host (dports.getD 0 0)) [lineNoise, lineZ1, lineP1] =
      .ok [((0 : Int), ((1 : Nat) : Rat) * 1000)] ∧
    parse (mkExpr Mode.host (dports.getD 1 0)) [lineNoise, lineZ1, lineP1] =
      .ok [((0 : Int), ((2 : Nat) : Rat) * 1000)] ∧
    ((1 : Nat) : Rat) * 1000 ≠ ((2 : Nat) : Rat) * 1000 := by
  refine ⟨?_, by decide, by decide, by decide, by decide, by decide, by rfl, by rfl, by norm_num⟩
  intro m lines
  exact parseGo_filter m lines 0 []

theorem extractRecs_rtts (m : List Char → Option (List Char × List Char × List Char)) :
    ∀ (ls : List (List Char)) (recs : List (Nat × Rat)),
    extractRecs m ls = .ok recs →
    recs.map Prod.snd = ls.filterMap (fun l => (m l).bind fun g => parseFloat g.2.1) := by
  intro ls
  induction ls with
  | nil =>
    intro recs h
    injection h with h2
    subst h2
    rfl
  | cons l ls ih =>
    intro recs h
    cases hm : m l with
    | none =>
      simp only [extractRecs, hm] at h
      rw [List.filterMap_cons]
      simp only [hm, Option.none_bind]
      exact ih recs h
    | some g =>
      obtain ⟨g1, g2, g3⟩ := g
      simp only [extractRecs, hm] at h
      cases ht : str_to_ns g1 with
      | none => rw [ht] at h; exact absurd h (by simp)
      | some t =>
        rw [ht] at h
        cases hr : parseFloat g2 with
        | none => rw [hr] at h; exact absurd h (by simp)
        | some r =>
          rw [hr] at h
          cases he : extractRecs m ls with
          | error e => rw [he] at h; exact absurd h (by simp [Except.map])
          | ok rs =>
            rw [he] at h
            simp only [Except.map] at h
            injection h with h2
            subst h2
            rw [List.filterMap_cons]
            simp only [hm, Option.some_bind, hr, List.map_cons]
            rw [ih rs he]

def lineR125 : List Char :=
  ("00:00:00.000000001 12.5 ms 3.4 ms TCP 192.168.2.102:1+192.168.2.103:5200\n").toList

/-- C7: each sample's RTT value is capture group 2 of the matched line
converted from milliseconds to microseconds by multiplying by 1000;
capture group 3 is captured but not retained (the result of `parse` is
invariant under arbitrary rewriting of group 3); and an RTT field of
`12.5` yields exactly `12500`. -/
theorem claim_C7 :
    (∀ (f : List Char → List Char)
      (m : List Char → Option (List Char × List Char × List Char))
      (lines : List (List Char)),
      parse (fun l => (m l).map (fun g => (g.1, g.2.1, f g.2.2))) lines = parse m lines) ∧
    (∀ (m : List Char → Option (List Char × List Char × List Char))
      (lines : List (List Char)) (s : List (Int × Rat)),
      parse m lines = .ok s →
      s.map Prod.snd =
        lines.filterMap (fun l => (m l).bind fun g => (parseFloat g.2.1).map (· * 1000))) ∧
    parseFloat (("12.5").toList) = some (25 / 2 : Rat) ∧
    (parse (mkExpr Mode.host (dports.getD 0 0)) [lineR125]).map
      (fun s => s.map Prod.snd) = .ok [(12500 : Rat)] := by
  have h125 : parseFloat (("12.5").toList) = some (25 / 2 : Rat) := by
    have h : parseFloat (("12.5").toList) =
        some ((digitsVal ['1', '2'] : Rat) + (digitsVal ['5'] : Rat) / (10 : Rat) ^ (1 : Nat)) := rfl
    rw [h]
    norm_num [show digitsVal ['1', '2'] = 12 from rfl, show digitsVal ['5'] = 5 from rfl]
  refine ⟨?_, ?_, h125, ?_⟩
  · intro f m lines
    show parseGo _ lines 0 [] = parseGo m lines 0 []
    generalize 0 = a
    generalize ([] : List (Int × Rat)) = acc
    induction lines generalizing a acc with
    | nil => rfl
    | cons l ls ih =>
      cases hm : m l with
      | none => simp only [parseGo, hm, Option.map_none']; exact ih a acc
      | some g =>
        obtain ⟨g1, g2, g3⟩ := g
        simp only [parseGo, hm, Option.map_some']
        cases ht : str_to_ns g1 with
        | none => rfl
        | some t =>
          cases hr : parseFloat g2 with
          | none => rfl
          | some r => exact ih _ _
  · intro m lines s hs
    rw [parse_eq] at hs
    cases he : extractRecs m lines with
    | error e => rw [he] at hs; exact absurd hs (by simp [Except.map])
    | ok recs =>
      rw [he] at hs
      simp only [Except.map] at hs
      injection hs with hs2
      subst hs2
      rw [relativize_map_snd]
      have h1 := extractRecs_rtts m lines recs he
      have h2 : recs.map (fun p => p.2 * 1000) = (recs.map Prod.snd).map (· * 1000) := by
        rw [List.map_map]
        rfl
      rw [h2, h1, List.map_filterMap]
      refine congrArg (fun f => List.filterMap f lines) ?_
      funext l
      cases m l with
      | none => rfl
      | some g => cases parseFloat g.2.1 <;> rfl
  · rw [parse_eq]
    have he : extractRecs (mkExpr Mode.host (dports.getD 0 0)) [lineR125] =
        .ok [(1, (digitsVal ['1', '2'] : Rat) + (digitsVal ['5'] : Rat) / (10 : Rat) ^ (1 : Nat))] := by
      rfl
    rw [he]
    simp only [Except.map, relativize, List.map_cons, List.map_nil]
    refine congrArg Except.ok ?_
    refine congrArg (fun x => [x]) ?_
    norm_num [show digitsVal ['1', '2'] = 12 from rfl, show digitsVal ['5'] = 5 from rfl]

theorem claim_C7_witness :
    ([((0 : Int), ((1 : Nat) : Rat) * 1000)].map Prod.snd) =
      [lineZ1].filterMap (fun l => ((mkExpr Mode.host (dports.getD 0 0)) l).bind
        fun g => (parseFloat g.2.1).map (· * 1000)) :=
  claim_C7.2.1 (mkExpr Mode.host (dports.getD 0 0)) [lineZ1]
    [((0 : Int), ((1 : Nat) : Rat) * 1000)] parse_single_lineZ1

/-!
## Claims C4 and C10: the per-flow loop
-/

theorem clientLoop_succ (mode : Mode) (lines : List (List Char)) (k i : Nat)
    (acc : List (List Int × List Rat)) :
    clientLoop mode lines (k + 1) i acc =
      if _h : i < dports.length then
        match parse (mkExpr mode (dports.getD i 0)) lines with
        | .error e => .err e
        | .ok samples =>
          if samples.isEmpty then .noSamples
          else clientLoop mode lines k (i + 1)
            ((samples.map Prod.fst, samples.map Prod.snd) :: acc)
      else .indexError := rfl

theorem clientLoop_noSamples (mode : Mode) (lines : List (List Char)) (i0 : Nat)
    (h8 : i0 < 8)
    (hempty : parse (mkExpr mode (dports.getD i0 0)) lines = .ok [])
    (hprev : ∀ j, j < i0 →
      ∃ s, parse (mkExpr mode (dports.getD j 0)) lines = .ok s ∧ s ≠ []) :
    ∀ (k i : Nat) (acc : List (List Int × List Rat)), i ≤ i0 → i0 < i + k →
    clientLoop mode lines k i acc = .noSamples := by
  intro k
  induction k with
  | zero => intro i acc hi hik; omega
  | succ k ih =>
    intro i acc hi hik
    have hd : dports.length = 8 := rfl
    have hilt : i < dports.length := by omega
    rw [clientLoop_succ, dif_pos hilt]
    by_cases hii : i = i0
    · subst hii
      rw [hempty]
      rfl
    · have hlt : i < i0 := by omega
      obtain ⟨s, hsok, hsne⟩ := hprev i hlt
      obtain ⟨a, l, rfl⟩ : ∃ a l, s = a :: l := by
        cases s with
        | nil => exact absurd rfl hsne
        | cons a l => exact ⟨a, l, rfl⟩
      rw [hsok]
      exact ih (i + 1) _ (by omega) (by omega)

/-- C4: if some flow's scan (inside the supported range of the port table,
with all earlier flows' scans succeeding with data) matches zero lines,
`end_client_epping` hits the distinct empty-result branch — it prints the
failure and returns `None` immediately, so no flow mapping and no partial
report is produced. -/
theorem claim_C4 (mode : Mode) (lines : List (List Char)) (n i0 : Nat)
    (hn : i0 < n) (h8 : i0 < 8)
    (hempty : parse (mkExpr mode (dports.getD i0 0)) lines = .ok [])
    (hprev : ∀ j, j < i0 →
      ∃ s, parse (mkExpr mode (dports.getD j 0)) lines = .ok s ∧ s ≠ []) :
    end_client_epping mode lines n = .noSamples :=
  clientLoop_noSamples mode lines i0 h8 hempty hprev n 0 [] (by omega) (by omega)

theorem claim_C4_witness : end_client_epping Mode.host [] 1 = .noSamples :=
  claim_C4 Mode.host [] 1 0 (by decide) (by decide) (by rfl)
    (fun j hj => absurd hj (by omega))

theorem clientLoop_no_ok (mode : Mode) (lines : List (List Char)) :
    ∀ (k i : Nat) (acc : List (List Int × List Rat))
      (m' : List (List Int × List Rat)), i ≤ 8 → 8 < i + k →
    clientLoop mode lines k i acc ≠ .ok m' := by
  intro k
  induction k with
  | zero => intro i acc m' h8 hik; omega
  | succ k ih =>
    intro i acc m' h8 hik
    have hd : dports.length = 8 := rfl
    rw [clientLoop_succ]
    by_cases hi : i < dports.length
    · rw [dif_pos hi]
      cases hp : parse (mkExpr mode (dports.getD i 0)) lines with
      | error e => simp
      | ok samples =>
        cases samples with
        | nil => simp
        | cons a l => exact ih (i + 1) _ m' (by omega) (by omega)
    · rw [dif_neg hi]
      simp

theorem clientLoop_indexError (mode : Mode) (lines : List (List Char))
    (hall : ∀ j, j < 8 →
      ∃ s, parse (mkExpr mode (dports.getD j 0)) lines = .ok s ∧ s ≠ []) :
    ∀ (k i : Nat) (acc : List (List Int × List Rat)), i ≤ 8 → 8 < i + k →
    clientLoop mode lines k i acc = .indexError := by
  intro k
  induction k with
  | zero => intro i acc hi hik; omega
  | succ k ih =>
    intro i acc hi hik
    have hd : dports.length = 8 := rfl
    rw [clientLoop_succ]
    by_cases hii : i = 8
    · subst hii
      have hno : ¬ ((8 : Nat) < dports.length) := by omega
      rw [dif_neg hno]
    · have hlt : i < 8 := by omega
      have hilt : i < dports.length := by omega
      rw [dif_pos hilt]
      obtain ⟨s, hsok, hsne⟩ := hall i hlt
      obtain ⟨a, l, rfl⟩ : ∃ a l, s = a :: l := by
        cases s with
        | nil => exact absurd rfl hsne
        | cons a l => exact ⟨a, l, rfl⟩
      rw [hsok]
      exact ih (i + 1) _ (by omega) (by omega)

/-- C10 counterexample: with 9 requested flows over an empty capture the
loop returns the empty-result `None` at flow 0 and never reaches the
out-of-range access, so "for every num_flows greater than 8 the loop fails
with an out-of-range index access" is false as stated. -/
theorem claim_C10_cex :
    end_client_epping Mode.host [] 9 = .noSamples ∧
    EppingOutcome.noSamples ≠ .indexError := by
  exact ⟨by decide, by decide⟩

/-- C10 (amended): `end_client_epping` supports at most 8 flows — the port
table has exactly 8 entries and the requested flow count is not validated
against it.  For every `num_flows > 8` no flow mapping is ever returned;
and whenever the first eight flows each scan at least one sample, the loop
fails with the out-of-range index access on `dports` at flow index 8,
before flow 8's scan completes. -/
theorem claim_C10 :
    dports.length = 8 ∧
    (∀ (mode : Mode) (lines : List (List Char)) (n : Nat)
      (m' : List (List Int × List Rat)),
      8 < n → end_client_epping mode lines n ≠ .ok m') ∧
    (∀ (mode : Mode) (lines : List (List Char)) (n : Nat),
      8 < n →
      (∀ j, j < 8 →
        ∃ s, parse (mkExpr mode (dports.getD j 0)) lines = .ok s ∧ s ≠ []) →
      end_client_epping mode lines n = .indexError) := by
  refine ⟨rfl, ?_, ?_⟩
  · intro mode lines n m' hn
    exact clientLoop_no_ok mode lines n 0 [] m' (by omega) (by omega)
  · intro mode lines n hn hall
    exact clientLoop_indexError mode lines hall n 0 [] (by omega) (by omega)

def flowLine (d : Char) : List Char :=
  ("00:00:00.000000001 1 ms 1 ms TCP 192.168.2.102:1+192.168.2.103:520").toList ++
    [d, '\n']

def lines8 : List (List Char) :=
  [flowLine '0', flowLine '1', flowLine '2', flowLine '3',
   flowLine '4', flowLine '5', flowLine '6', flowLine '7']

theorem claim_C10_witness : end_client_epping Mode.host lines8 9 = .indexError := by
  refine claim_C10.2.2 Mode.host lines8 9 (by omega) ?_
  intro j hj
  interval_cases j <;>
    exact ⟨[((0 : Int), ((1 : Nat) : Rat) * 1000)], by rfl, by simp⟩

/-!
## Claims C8 and C9: structure of the compiled pattern

Inversion lemmas: what a successful match tells about the input line.
-/

/-- The shape the pattern forces on capture group 1: two-digit hours,
minutes and seconds separated by colons, a dot, and exactly nine fraction
digits. -/
def tsGroupShape (g1 : List Char) : Prop :=
  ∃ h1 h2 m1 m2 s1 s2 frac,
    g1 = h1 :: h2 :: ':' :: m1 :: m2 :: ':' :: s1 :: s2 :: '.' :: frac ∧
    h1.isDigit = true ∧ h2.isDigit = true ∧ m1.isDigit = true ∧ m2.isDigit = true ∧
    s1.isDigit = true ∧ s2.isDigit = true ∧ frac.length = 9 ∧ ∀ c ∈ frac, c.isDigit = true

/-- Everything the pattern forces on a matched line: the line (modulo one
final newline) decomposes into the timestamp group, a whitespace, the lazy
group 2, a `\sms\s` separator, the lazy group 3, another separator, the
literal protocol tag, a whitespace, the source segment
`192.168.2.102:` (its three dots being arbitrary non-newline characters),
an arbitrary newline-free source-port span, and the literal `+target` at
the very end. -/
def eppingLineShape (proto target line g1 g2 g3 : List Char) : Prop :=
  ∃ w1 w2 w3 w4 w5 w6 a b c mid,
    dropFinalNl line =
      g1 ++ w1 :: (g2 ++ w2 :: 'm' :: 's' :: w3 :: (g3 ++ w4 :: 'm' :: 's' :: w5 ::
        (proto ++ w6 :: '1' :: '9' :: '2' :: a :: '1' :: '6' :: '8' :: b :: '2' :: c ::
          '1' :: '0' :: '2' :: ':' :: (mid ++ '+' :: target)))) ∧
    tsGroupShape g1 ∧
    isPySpace w1 = true ∧ isPySpace w2 = true ∧ isPySpace w3 = true ∧
    isPySpace w4 = true ∧ isPySpace w5 = true ∧ isPySpace w6 = true ∧
    g2 ≠ [] ∧ (∀ x ∈ g2, x ≠ '\n') ∧ g3 ≠ [] ∧ (∀ x ∈ g3, x ≠ '\n') ∧
    a ≠ '\n' ∧ b ≠ '\n' ∧ c ≠ '\n' ∧ (∀ x ∈ mid, x ≠ '\n')

theorem stripPre_some :
    ∀ (p l r : List Char), stripPre p l = some r → l = p ++ r := by
  intro p
  induction p with
  | nil =>
    intro l r h
    have h2 : some l = some r := h
    injection h2
  | cons a ps ih =>
    intro l r h
    cases l with
    | nil => exact absurd h (by simp [stripPre])
    | cons c cs =>
      have h2 : (if c = a then stripPre ps cs else none) = some r := h
      by_cases hca : c = a
      · subst hca
        rw [if_pos rfl] at h2
        rw [List.cons_append, ih cs r h2]
      · rw [if_neg hca] at h2
        exact absurd h2 (by simp)

theorem stripPre_self : ∀ (p r : List Char), stripPre p (p ++ r) = some r := by
  intro p
  induction p with
  | nil => intro r; rfl
  | cons a ps ih =>
    intro r
    simp only [List.cons_append, stripPre, if_pos rfl]
    exact ih r

theorem spaceTok_some (l : List Char) (w : Char) (r : List Char)
    (h : spaceTok l = some (w, r)) : l = w :: r ∧ isPySpace w = true := by
  cases l with
  | nil => exact absurd h (by simp [spaceTok])
  | cons c cs =>
    have h2 : (if isPySpace c then some (c, cs) else none) = some (w, r) := h
    by_cases hs : isPySpace c = true
    · rw [if_pos hs] at h2
      injection h2 with h3
      injection h3 with e1 e2
      subst e1
      subst e2
      exact ⟨rfl, hs⟩
    · rw [if_neg hs] at h2
      exact absurd h2 (by simp)

theorem anyNonNl_some (l : List Char) (c : Char) (r : List Char)
    (h : anyNonNl l = some (c, r)) : l = c :: r ∧ c ≠ '\n' := by
  cases l with
  | nil => exact absurd h (by simp [anyNonNl])
  | cons a cs =>
    have h2 : (if a = '\n' then none else some (a, cs)) = some (c, r) := h
    by_cases hn : a = '\n'
    · rw [if_pos hn] at h2
      exact absurd h2 (by simp)
    · rw [if_neg hn] at h2
      injection h2 with h3
      injection h3 with e1 e2
      subst e1
      subst e2
      exact ⟨rfl, hn⟩

theorem digit2_some (l : List Char) (a b : Char) (r : List Char)
    (h : digit2 l = some (a, b, r)) :
    l = a :: b :: r ∧ a.isDigit = true ∧ b.isDigit = true := by
  cases l with
  | nil => exact absurd h (by simp [digit2])
  | cons c1 rest =>
    cases rest with
    | nil => exact absurd h (by simp [digit2])
    | cons c2 cs =>
      have h2 : (if (c1.isDigit && c2.isDigit) = true then some (c1, c2, cs) else none)
          = some (a, b, r) := h
      by_cases hd : (c1.isDigit && c2.isDigit) = true
      · rw [if_pos hd] at h2
        injection h2 with h3
        injection h3 with e1 h4
        injection h4 with e2 e3
        subst e1
        subst e2
        subst e3
        rw [Bool.and_eq_true] at hd
        exact ⟨rfl, hd.1, hd.2⟩
      · rw [if_neg hd] at h2
        exact absurd h2 (by simp)

theorem digitN_some :
    ∀ (n : Nat) (l d r : List Char), digitN n l = some (d, r) →
    l = d ++ r ∧ d.length = n ∧ ∀ c ∈ d, c.isDigit = true := by
  intro n
  induction n with
  | zero =>
    intro l d r h
    injection h with h2
    injection h2 with e1 e2
    subst e1
    subst e2
    exact ⟨rfl, rfl, by simp⟩
  | succ n ih =>
    intro l d r h
    cases l with
    | nil => exact absurd h (by simp [digitN])
    | cons c cs =>
      have h2 : (if c.isDigit then (digitN n cs).map (fun p => (c :: p.1, p.2)) else none)
          = some (d, r) := h
      by_cases hd : c.isDigit = true
      · rw [if_pos hd] at h2
        rw [Option.map_eq_some'] at h2
        obtain ⟨p, hp, heq⟩ := h2
        obtain ⟨d2, r2⟩ := p
        have e1 : c :: d2 = d := congrArg Prod.fst heq
        have e2 : r2 = r := congrArg Prod.snd heq
        subst e1
        subst e2
        obtain ⟨hl, hlen, hdig⟩ := ih cs d2 r2 hp
        refine ⟨by rw [hl, List.cons_append], by simp [hlen], ?_⟩
        intro x hx
        rcases List.mem_cons.mp hx with rfl | hx
        · exact hd
        · exact hdig x hx
      · rw [if_neg hd] at h2
        exact absurd h2 (by simp)

theorem matchTs_some (l g1 r : List Char) (h : matchTs l = some (g1, r)) :
    l = g1 ++ r ∧ tsGroupShape g1 := by
  simp only [matchTs, Option.bind_eq_some, Option.map_eq_some'] at h
  obtain ⟨p1, hp1, r2, hr2, p2, hp2, r4, hr4, p3, hp3, r6, hr6, p4, hp4, heq⟩ := h
  obtain ⟨a1, b1, rr1⟩ := p1
  obtain ⟨a2, b2, rr2⟩ := p2
  obtain ⟨a3, b3, rr3⟩ := p3
  obtain ⟨d4, rr4⟩ := p4
  have e1 : a1 :: b1 :: ':' :: a2 :: b2 :: ':' :: a3 :: b3 :: '.' :: d4 = g1 :=
    congrArg Prod.fst heq
  have e2 : rr4 = r := congrArg Prod.snd heq
  subst e1
  subst e2
  obtain ⟨hl1, hd1, hd2⟩ := digit2_some l a1 b1 rr1 hp1
  have hl2 := stripPre_some [':'] rr1 r2 hr2
  obtain ⟨hl3, hd3, hd4⟩ := digit2_some r2 a2 b2 rr2 hp2
  have hl4 := stripPre_some [':'] rr2 r4 hr4
  obtain ⟨hl5, hd5, hd6⟩ := digit2_some r4 a3 b3 rr3 hp3
  have hl6 : rr3 = ['.'] ++ r6 := stripPre_some ['.'] rr3 r6 hr6
  obtain ⟨hl7, hlen, hdig⟩ := digitN_some 9 r6 d4 rr4 hp4
  constructor
  · rw [hl1, hl2, hl3, hl4, hl5, hl6, hl7]
    simp
  · exact ⟨a1, b1, a2, b2, a3, b3, d4, rfl, hd1, hd2, hd3, hd4, hd5, hd6, hlen, hdig⟩

theorem sepMs_some (l : List Char) (w1 w2 : Char) (r : List Char)
    (h : sepMs l = some (w1, w2, r)) :
    l = w1 :: 'm' :: 's' :: w2 :: r ∧ isPySpace w1 = true ∧ isPySpace w2 = true := by
  simp only [sepMs, Option.bind_eq_some, Option.map_eq_some'] at h
  obtain ⟨q1, hq1, r2, hr2, q2, hq2, heq⟩ := h
  obtain ⟨wa, ra⟩ := q1
  obtain ⟨wb, rb⟩ := q2
  have e1 : wa = w1 := congrArg Prod.fst heq
  have e2 : wb = w2 := congrArg (fun x => x.2.1) heq
  have e3 : rb = r := congrArg (fun x => x.2.2) heq
  subst e1
  subst e2
  subst e3
  obtain ⟨hla, hsa⟩ := spaceTok_some l wa ra hq1
  have hlb : ra = ['m', 's'] ++ r2 := stripPre_some ['m', 's'] ra r2 hr2
  obtain ⟨hlc, hsb⟩ := spaceTok_some r2 wb rb hq2
  refine ⟨?_, hsa, hsb⟩
  rw [hla, hlb, hlc]
  rfl

theorem dotStar_of_append (tgt : List Char) :
    ∀ (mid : List Char), (∀ c ∈ mid, c ≠ '\n') →
    dotStarPlusTarget tgt (mid ++ '+' :: tgt) = true := by
  intro mid
  induction mid with
  | nil =>
    intro _
    simp [dotStarPlusTarget]
  | cons c cs ih =>
    intro h
    have hc : c ≠ '\n' := h c (by simp)
    have hrest := ih (fun x hx => h x (by simp [hx]))
    simp [dotStarPlusTarget, hrest, hc]

theorem dotStar_split (tgt : List Char) :
    ∀ (l : List Char), dotStarPlusTarget tgt l = true →
    ∃ mid, l = mid ++ '+' :: tgt ∧ ∀ c ∈ mid, c ≠ '\n' := by
  intro l
  induction l with
  | nil => intro h; exact absurd h (by simp [dotStarPlusTarget])
  | cons c cs ih =>
    intro h
    simp only [dotStarPlusTarget, Bool.or_eq_true, Bool.and_eq_true, beq_iff_eq,
      bne_iff_ne] at h
    rcases h with ⟨hc, hcs⟩ | ⟨hc, h2⟩
    · subst hc
      subst hcs
      exact ⟨[], rfl, by simp⟩
    · obtain ⟨mid, rfl, hmid⟩ := ih h2
      refine ⟨c :: mid, rfl, ?_⟩
      intro x hx
      rcases List.mem_cons.mp hx with rfl | hx
      · exact hc
      · exact hmid x hx

theorem srcSeg_some (l r : List Char) (h : srcSeg l = some r) :
    ∃ a b c, l = '1' :: '9' :: '2' :: a :: '1' :: '6' :: '8' :: b :: '2' :: c ::
      '1' :: '0' :: '2' :: ':' :: r ∧ a ≠ '\n' ∧ b ≠ '\n' ∧ c ≠ '\n' := by
  simp only [srcSeg, Option.bind_eq_some] at h
  obtain ⟨r1, h1, q1, h2, r2, h3, q2, h4, r3, h5, q3, h6, h7⟩ := h
  obtain ⟨a, ra⟩ := q1
  obtain ⟨b, rb⟩ := q2
  obtain ⟨c, rc⟩ := q3
  have e1 : l = ['1', '9', '2'] ++ r1 := stripPre_some _ _ _ h1
  obtain ⟨e2, ha⟩ := anyNonNl_some r1 a ra h2
  have e3 : ra = ['1', '6', '8'] ++ r2 := stripPre_some _ _ _ h3
  obtain ⟨e4, hb⟩ := anyNonNl_some r2 b rb h4
  have e5 : rb = ['2'] ++ r3 := stripPre_some _ _ _ h5
  obtain ⟨e6, hc⟩ := anyNonNl_some r3 c rc h6
  have e7 : rc = ['1', '0', '2', ':'] ++ r := stripPre_some _ _ _ h7
  refine ⟨a, b, c, ?_, ha, hb, hc⟩
  rw [e1, e2, e3, e4, e5, e6, e7]
  rfl

theorem tailM_true (proto tgt l : List Char) (h : tailM proto tgt l = true) :
    ∃ w a b c mid,
      l = proto ++ w :: '1' :: '9' :: '2' :: a :: '1' :: '6' :: '8' :: b :: '2' :: c ::
        '1' :: '0' :: '2' :: ':' :: (mid ++ '+' :: tgt) ∧
      isPySpace w = true ∧ a ≠ '\n' ∧ b ≠ '\n' ∧ c ≠ '\n' ∧ ∀ x ∈ mid, x ≠ '\n' := by
  unfold tailM at h
  cases hsp : stripPre proto l with
  | none => rw [hsp] at h; exact absurd h (by simp)
  | some r1 =>
    rw [hsp] at h
    have h1 : (match spaceTok r1 with
      | none => false
      | some q =>
        match srcSeg q.2 with
        | none => false
        | some r2 => dotStarPlusTarget tgt r2) = true := h
    cases hq : spaceTok r1 with
    | none => rw [hq] at h1; exact absurd h1 (by simp)
    | some q =>
      rw [hq] at h1
      obtain ⟨w, rw1⟩ := q
      have h2 : (match srcSeg rw1 with
        | none => false
        | some r2 => dotStarPlusTarget tgt r2) = true := h1
      cases hsr : srcSeg rw1 with
      | none => rw [hsr] at h2; exact absurd h2 (by simp)
      | some r2 =>
        rw [hsr] at h2
        have hds : dotStarPlusTarget tgt r2 = true := h2
        obtain ⟨mid, rfl, hmid⟩ := dotStar_split tgt r2 hds
        have e1 : l = proto ++ r1 := stripPre_some _ _ _ hsp
        obtain ⟨e2, hw⟩ := spaceTok_some r1 w rw1 hq
        obtain ⟨a, b, c, e3, ha, hb, hc⟩ := srcSeg_some rw1 _ hsr
        refine ⟨w, a, b, c, mid, ?_, hw, ha, hb, hc, hmid⟩
        rw [e1, e2, e3]

theorem checkAfterG3_true (proto tgt l : List Char)
    (h : checkAfterG3 proto tgt l = true) :
    ∃ w1 w2 r, l = w1 :: 'm' :: 's' :: w2 :: r ∧ isPySpace w1 = true ∧
      isPySpace w2 = true ∧ tailM proto tgt r = true := by
  unfold checkAfterG3 at h
  cases hq : sepMs l with
  | none => rw [hq] at h; exact absurd h (by simp)
  | some q =>
    obtain ⟨w1, qq⟩ := q
    obtain ⟨w2, r⟩ := qq
    rw [hq] at h
    have htail : tailM proto tgt r = true := h
    obtain ⟨hl, hs1, hs2⟩ := sepMs_some l w1 w2 r hq
    exact ⟨w1, w2, r, hl, hs1, hs2, htail⟩

theorem checkAfterG2_some (proto tgt l g3 : List Char)
    (h : checkAfterG2 proto tgt l = some g3) :
    ∃ w1 w2 r, l = w1 :: 'm' :: 's' :: w2 :: r ∧ isPySpace w1 = true ∧
      isPySpace w2 = true ∧ findG3 proto tgt r = some g3 := by
  unfold checkAfterG2 at h
  cases hq : sepMs l with
  | none => rw [hq] at h; exact absurd h (by simp)
  | some q =>
    obtain ⟨w1, qq⟩ := q
    obtain ⟨w2, r⟩ := qq
    rw [hq] at h
    have hg : findG3 proto tgt r = some g3 := h
    obtain ⟨hl, hs1, hs2⟩ := sepMs_some l w1 w2 r hq
    exact ⟨w1, w2, r, hl, hs1, hs2, hg⟩

theorem findG3_some (proto tgt : List Char) :
    ∀ (l g3 : List Char), findG3 proto tgt l = some g3 →
    g3 ≠ [] ∧ (∀ c ∈ g3, c ≠ '\n') ∧
    ∃ rest, l = g3 ++ rest ∧ checkAfterG3 proto tgt rest = true := by
  intro l
  induction l with
  | nil => intro g3 h; exact absurd h (by simp [findG3])
  | cons c cs ih =>
    intro g3 h
    simp only [findG3] at h
    by_cases hnl : c = '\n'
    · rw [if_pos hnl] at h
      exact absurd h (by simp)
    · rw [if_neg hnl] at h
      by_cases hck : checkAfterG3 proto tgt cs = true
      · rw [if_pos hck] at h
        injection h with h2
        subst h2
        refine ⟨by simp, ?_, cs, rfl, hck⟩
        intro x hx
        rcases List.mem_cons.mp hx with rfl | hx
        · exact hnl
        · simp at hx
      · rw [if_neg hck] at h
        rw [Option.map_eq_some'] at h
        obtain ⟨g, hg, h2⟩ := h
        subst h2
        obtain ⟨hne, hnN, rest, hrest, hcheck⟩ := ih g hg
        refine ⟨by simp, ?_, rest, by rw [hrest]; rfl, hcheck⟩
        intro x hx
        rcases List.mem_cons.mp hx with rfl | hx
        · exact hnl
        · exact hnN x hx

theorem findG2_some (proto tgt : List Char) :
    ∀ (l g2 g3 : List Char), findG2 proto tgt l = some (g2, g3) →
    g2 ≠ [] ∧ (∀ c ∈ g2, c ≠ '\n') ∧
    ∃ rest, l = g2 ++ rest ∧ checkAfterG2 proto tgt rest = some g3 := by
  intro l
  induction l with
  | nil => intro g2 g3 h; exact absurd h (by simp [findG2])
  | cons c cs ih =>
    intro g2 g3 h
    simp only [findG2] at h
    by_cases hnl : c = '\n'
    · rw [if_pos hnl] at h
      exact absurd h (by simp)
    · rw [if_neg hnl] at h
      cases hck : checkAfterG2 proto tgt cs with
      | some g3' =>
        rw [hck] at h
        have h2 : some ([c], g3') = some (g2, g3) := h
        injection h2 with h3
        have e1 : [c] = g2 := congrArg Prod.fst h3
        have e2 : g3' = g3 := congrArg Prod.snd h3
        subst e1
        subst e2
        refine ⟨by simp, ?_, cs, rfl, hck⟩
        intro x hx
        rcases List.mem_cons.mp hx with rfl | hx
        · exact hnl
        · simp at hx
      | none =>
        rw [hck] at h
        have h2 : (findG2 proto tgt cs).map (fun q => (c :: q.1, q.2)) = some (g2, g3) := h
        rw [Option.map_eq_some'] at h2
        obtain ⟨q, hq, h3⟩ := h2
        obtain ⟨qa, qb⟩ := q
        have e1 : c :: qa = g2 := congrArg Prod.fst h3
        have e2 : qb = g3 := congrArg Prod.snd h3
        subst e1
        subst e2
        obtain ⟨hne, hnN, rest, hrest, hcheck⟩ := ih qa qb hq
        refine ⟨by simp, ?_, rest, by rw [hrest]; rfl, hcheck⟩
        intro x hx
        rcases List.mem_cons.mp hx with rfl | hx
        · exact hnl
        · exact hnN x hx

/-- Necessity: everything a successful `eppingMatch` implies about the
line and the three captures. -/
theorem eppingMatch_some (proto tgt line g1 g2 g3 : List Char)
    (h : eppingMatch proto tgt line = some (g1, g2, g3)) :
    eppingLineShape proto tgt line g1 g2 g3 := by
  unfold eppingMatch at h
  cases hm : matchTs (dropFinalNl line) with
  | none => rw [hm] at h; exact absurd h (by simp)
  | some pr =>
    obtain ⟨G1, r1⟩ := pr
    rw [hm] at h
    cases r1 with
    | nil => exact absurd h (by simp)
    | cons w r2 =>
      have h1 : (if isPySpace w = true then
          (findG2 proto tgt r2).map (fun q => (G1, q.1, q.2)) else none) = some (g1, g2, g3) := h
      by_cases hw : isPySpace w = true
      · rw [if_pos hw] at h1
        rw [Option.map_eq_some'] at h1
        obtain ⟨q, hq, heq⟩ := h1
        obtain ⟨G2, G3⟩ := q
        have e1 : G1 = g1 := congrArg Prod.fst heq
        have e2 : G2 = g2 := congrArg (fun x => x.2.1) heq
        have e3 : G3 = g3 := congrArg (fun x => x.2.2) heq
        subst e1
        subst e2
        subst e3
        obtain ⟨hne2, hnN2, rest2, hr2, hck2⟩ := findG2_some proto tgt r2 G2 G3 hq
        obtain ⟨w2, w3, r3, hrest2, hs2, hs3, hg3⟩ :=
          checkAfterG2_some proto tgt rest2 G3 hck2
        obtain ⟨hne3, hnN3, rest3, hr3, hck3⟩ := findG3_some proto tgt r3 G3 hg3
        obtain ⟨w4, w5, r4, hrest3, hs4, hs5, htail⟩ :=
          checkAfterG3_true proto tgt rest3 hck3
        obtain ⟨w6, a, b, c, mid, hr4, hs6, ha, hb, hc, hmid⟩ :=
          tailM_true proto tgt r4 htail
        obtain ⟨hlineEq, hshape⟩ := matchTs_some (dropFinalNl line) G1 (w :: r2) hm
        refine ⟨w, w2, w3, w4, w5, w6, a, b, c, mid, ?_, hshape, hw, hs2, hs3,
          hs4, hs5, hs6, hne2, hnN2, hne3, hnN3, ha, hb, hc, hmid⟩
        rw [hlineEq, hr2, hrest2, hr3, hrest3, hr4]
      · rw [if_neg hw] at h1
        exact absurd h1 (by simp)

/-!
Sufficiency: a well-formed line with an arbitrary newline-free source-port
span matches, with the expected captures — the source port is a wildcard.
-/

def tsDemo : List Char := ("00:00:00.000000001").toList

def srcChars : List Char := ("192.168.2.102:").toList

def demoBody (proto tgt p : List Char) : List Char :=
  tsDemo ++ ' ' :: '7' :: ' ' :: 'm' :: 's' :: ' ' :: '3' :: ' ' :: 'm' :: 's' :: ' ' ::
    (proto ++ ' ' :: (srcChars ++ (p ++ '+' :: tgt)))

/-- A canonical epping line for protocol `proto`, destination `tgt` and an
arbitrary source-port span `p`, with a trailing newline as produced by
`readlines`. -/
def demoLine (proto tgt p : List Char) : List Char :=
  demoBody proto tgt p ++ ['\n']

theorem dropFinalNl_concat (l : List Char) : dropFinalNl (l ++ ['\n']) = l := by
  unfold dropFinalNl
  rw [List.getLast?_concat, if_pos rfl, List.dropLast_concat]

theorem matchTs_demo (r : List Char) : matchTs (tsDemo ++ r) = some (tsDemo, r) := rfl

theorem srcSeg_self (r : List Char) : srcSeg (srcChars ++ r) = some r := rfl

theorem tailM_demo (proto tgt mid : List Char) (hmid : ∀ c ∈ mid, c ≠ '\n') :
    tailM proto tgt (proto ++ ' ' :: (srcChars ++ (mid ++ '+' :: tgt))) = true := by
  unfold tailM
  rw [stripPre_self]
  show (match srcSeg (srcChars ++ (mid ++ '+' :: tgt)) with
    | none => false
    | some r2 => dotStarPlusTarget tgt r2) = true
  rw [srcSeg_self]
  exact dotStar_of_append tgt mid hmid

theorem findG3_first (proto tgt : List Char) (c : Char) (hc : ¬ (c = '\n'))
    (rest : List Char) (h : checkAfterG3 proto tgt rest = true) :
    findG3 proto tgt (c :: rest) = some [c] := by
  simp only [findG3]
  rw [if_neg hc, if_pos h]

theorem findG2_first (proto tgt : List Char) (c : Char) (hc : ¬ (c = '\n'))
    (rest g3 : List Char) (h : checkAfterG2 proto tgt rest = some g3) :
    findG2 proto tgt (c :: rest) = some ([c], g3) := by
  simp only [findG2]
  rw [if_neg hc, h]

/-- Sufficiency: for every protocol tag, target and newline-free source
span `p`, the canonical line matches with captures
(timestamp, `"7"`, `"3"`). -/
theorem eppingMatch_demo (proto tgt p : List Char) (hp : ∀ c ∈ p, c ≠ '\n') :
    eppingMatch proto tgt (demoLine proto tgt p) = some (tsDemo, ['7'], ['3']) := by
  have htail : tailM proto tgt (proto ++ ' ' :: (srcChars ++ (p ++ '+' :: tgt))) = true :=
    tailM_demo proto tgt p hp
  have hck3 : checkAfterG3 proto tgt
      (' ' :: 'm' :: 's' :: ' ' :: (proto ++ ' ' :: (srcChars ++ (p ++ '+' :: tgt)))) = true :=
    htail
  have hg3 : findG3 proto tgt
      ('3' :: ' ' :: 'm' :: 's' :: ' ' :: (proto ++ ' ' :: (srcChars ++ (p ++ '+' :: tgt))))
      = some ['3'] :=
    findG3_first proto tgt '3' (by decide) _ hck3
  have hck2 : checkAfterG2 proto tgt
      (' ' :: 'm' :: 's' :: ' ' :: '3' :: ' ' :: 'm' :: 's' :: ' ' ::
        (proto ++ ' ' :: (srcChars ++ (p ++ '+' :: tgt)))) = some ['3'] :=
    hg3
  have hg2 : findG2 proto tgt
      ('7' :: ' ' :: 'm' :: 's' :: ' ' :: '3' :: ' ' :: 'm' :: 's' :: ' ' ::
        (proto ++ ' ' :: (srcChars ++ (p ++ '+' :: tgt)))) = some (['7'], ['3']) :=
    findG2_first proto tgt '7' (by decide) _ _ hck2
  unfold eppingMatch demoLine
  rw [dropFinalNl_concat]
  show (match matchTs (tsDemo ++ (' ' :: '7' :: ' ' :: 'm' :: 's' :: ' ' :: '3' :: ' ' ::
      'm' :: 's' :: ' ' :: (proto ++ ' ' :: (srcChars ++ (p ++ '+' :: tgt))))) with
    | none => none
    | some (g1, r1) =>
      match r1 with
      | [] => none
      | w :: r2 =>
        if isPySpace w then (findG2 proto tgt r2).map (fun q => (g1, q.1, q.2))
        else none) = some (tsDemo, ['7'], ['3'])
  rw [matchTs_demo]
  show (findG2 proto tgt ('7' :: ' ' :: 'm' :: 's' :: ' ' :: '3' :: ' ' :: 'm' :: 's' :: ' ' ::
      (proto ++ ' ' :: (srcChars ++ (p ++ '+' :: tgt))))).map
      (fun q => (tsDemo, q.1, q.2)) = some (tsDemo, ['7'], ['3'])
  rw [hg2]
  rfl

theorem dports_getD (i : Nat) (h : i < 8) : dports.getD i 0 = 5200 + i := by
  interval_cases i <;> rfl

/-- C8: for every flow index `i < 8` and transport mode, the constructed
pattern uses the protocol tag `UDP` exactly in vxlan mode and `TCP` in
native and host modes, the destination port is the `i`-th entry
`5200 + i` of the fixed 8-entry table; every line it accepts starts with a
9-digit-fraction timestamp, carries the two `ms` fields, the literal
protocol tag, the fixed source segment, and ends with the exact escaped
destination `address:port`; and the source-port span is a wildcard: a
canonical line matches for every newline-free span. -/
theorem claim_C8 :
    dports = [5200, 5201, 5202, 5203, 5204, 5205, 5206, 5207] ∧
    (∀ i : Fin 8, dports.getD (i : Nat) 0 = 5200 + (i : Nat)) ∧
    protoOf Mode.vxlan = ['U', 'D', 'P'] ∧
    protoOf Mode.native = ['T', 'C', 'P'] ∧
    protoOf Mode.host = ['T', 'C', 'P'] ∧
    (∀ (mode : Mode) (i : Nat) (line g1 g2 g3 : List Char), i < 8 →
      mkExpr mode (dports.getD i 0) line = some (g1, g2, g3) →
      eppingLineShape (protoOf mode) (targetOf (5200 + i)) line g1 g2 g3) ∧
    (∀ (mode : Mode) (i : Nat) (p : List Char), i < 8 → (∀ c ∈ p, c ≠ '\n') →
      mkExpr mode (dports.getD i 0)
        (demoLine (protoOf mode) (targetOf (5200 + i)) p) = some (tsDemo, ['7'], ['3'])) := by
  refine ⟨rfl, by decide, rfl, rfl, rfl, ?_, ?_⟩
  · intro mode i line g1 g2 g3 hi h
    rw [dports_getD i hi] at h
    exact eppingMatch_some (protoOf mode) (targetOf (5200 + i)) line g1 g2 g3 h
  · intro mode i p hi hp
    rw [dports_getD i hi]
    exact eppingMatch_demo (protoOf mode) (targetOf (5200 + i)) p hp

theorem claim_C8_witness :
    mkExpr Mode.host (dports.getD 0 0)
      (demoLine (protoOf Mode.host) (targetOf (5200 + 0)) (("40321").toList))
      = some (tsDemo, ['7'], ['3']) :=
  claim_C8.2.2.2.2.2.2 Mode.host 0 (("40321").toList) (by omega) (by decide)

/-!
## Claim C9: `str_to_ns` cannot fail on a matched line
-/

theorem tsSplits (h1 h2 m1 m2 s1 s2 : Char) (frac : List Char)
    (d1 : h1.isDigit = true) (d2 : h2.isDigit = true)
    (d3 : m1.isDigit = true) (d4 : m2.isDigit = true)
    (d5 : s1.isDigit = true) (d6 : s2.isDigit = true)
    (hdig : ∀ c ∈ frac, c.isDigit = true) :
    splitOnChar ':' (h1 :: h2 :: ':' :: m1 :: m2 :: ':' :: s1 :: s2 :: '.' :: frac) =
      [[h1, h2], [m1, m2], s1 :: s2 :: '.' :: frac] ∧
    splitOnChar '.' (s1 :: s2 :: '.' :: frac) = [[s1, s2], frac] := by
  have hc3 : splitOnChar ':' (s1 :: s2 :: '.' :: frac) = [s1 :: s2 :: '.' :: frac] := by
    refine splitOnChar_no_sep ':' _ ?_
    intro x hx
    rcases List.mem_cons.mp hx with rfl | hx
    · exact isDigit_ne_colon _ d5
    rcases List.mem_cons.mp hx with rfl | hx
    · exact isDigit_ne_colon _ d6
    rcases List.mem_cons.mp hx with rfl | hx
    · decide
    · exact isDigit_ne_colon _ (hdig _ hx)
  have hc2 : splitOnChar ':' (m1 :: m2 :: ':' :: s1 :: s2 :: '.' :: frac) =
      [m1, m2] :: splitOnChar ':' (s1 :: s2 :: '.' :: frac) :=
    splitOnChar_append ':' [m1, m2] (s1 :: s2 :: '.' :: frac) (by
      intro x hx
      rcases List.mem_cons.mp hx with rfl | hx
      · exact isDigit_ne_colon _ d3
      rcases List.mem_cons.mp hx with rfl | hx
      · exact isDigit_ne_colon _ d4
      · simp at hx)
  have hc1 : splitOnChar ':'
      (h1 :: h2 :: ':' :: m1 :: m2 :: ':' :: s1 :: s2 :: '.' :: frac) =
      [h1, h2] :: splitOnChar ':' (m1 :: m2 :: ':' :: s1 :: s2 :: '.' :: frac) :=
    splitOnChar_append ':' [h1, h2] (m1 :: m2 :: ':' :: s1 :: s2 :: '.' :: frac) (by
      intro x hx
      rcases List.mem_cons.mp hx with rfl | hx
      · exact isDigit_ne_colon _ d1
      rcases List.mem_cons.mp hx with rfl | hx
      · exact isDigit_ne_colon _ d2
      · simp at hx)
  have hdot : splitOnChar '.' (s1 :: s2 :: '.' :: frac) =
      [s1, s2] :: splitOnChar '.' frac :=
    splitOnChar_append '.' [s1, s2] frac (by
      intro x hx
      rcases List.mem_cons.mp hx with rfl | hx
      · exact isDigit_ne_dot _ d5
      rcases List.mem_cons.mp hx with rfl | hx
      · exact isDigit_ne_dot _ d6
      · simp at hx)
  rw [splitOnChar_no_sep '.' frac (fun x hx => isDigit_ne_dot _ (hdig _ hx))] at hdot
  rw [hc2, hc3] at hc1
  exact ⟨hc1, hdot⟩

theorem matched_ts_ok (proto tgt line g1 g2 g3 : List Char)
    (h : eppingMatch proto tgt line = some (g1, g2, g3)) :
    (splitOnChar ':' g1).length = 3 ∧
    (splitOnChar '.' ((splitOnChar ':' g1).getD 2 [])).length = 2 ∧
    ∃ v, str_to_ns g1 = some v := by
  obtain ⟨w1, w2, w3, w4, w5, w6, a, b, c, mid, hline, hshape, hrest⟩ :=
    eppingMatch_some proto tgt line g1 g2 g3 h
  obtain ⟨h1, h2, m1, m2, s1, s2, frac, hg1, d1, d2, d3, d4, d5, d6, hlen, hdig⟩ := hshape
  have hne : frac ≠ [] := by
    intro hfr
    rw [hfr] at hlen
    simp at hlen
  subst hg1
  have hv := str_to_ns_shape h1 h2 m1 m2 s1 s2 frac d1 d2 d3 d4 d5 d6 hne hdig
  obtain ⟨hcolon, hdot⟩ := tsSplits h1 h2 m1 m2 s1 s2 frac d1 d2 d3 d4 d5 d6 hdig
  refine ⟨?_, ?_, _, hv⟩
  · rw [hcolon]
    rfl
  · rw [hcolon]
    show (splitOnChar '.' (s1 :: s2 :: '.' :: frac)).length = 2
    rw [hdot]
    rfl

theorem parseGo_no_tsFormat (m : List Char → Option (List Char × List Char × List Char))
    (hm : ∀ l g1 g2 g3, m l = some (g1, g2, g3) → ∃ v, str_to_ns g1 = some v) :
    ∀ (ls : List (List Char)) (a : Nat) (acc : List (Int × Rat)),
    parseGo m ls a acc ≠ .error .tsFormat := by
  intro ls
  induction ls with
  | nil => intro a acc; simp [parseGo]
  | cons l ls ih =>
    intro a acc
    cases hml : m l with
    | none => simp only [parseGo, hml]; exact ih a acc
    | some g =>
      obtain ⟨g1, g2, g3⟩ := g
      obtain ⟨v, hv⟩ := hm l g1 g2 g3 hml
      simp only [parseGo, hml, hv]
      cases hr : parseFloat g2 with
      | none => simp
      | some r => exact ih _ _

/-- C9: under every pattern constructed by `end_client_epping`, a matched
line's capture group 1 always converts: the split on `:` yields exactly
three parts, the split on `.` yields exactly two, all four fields are
numeric, and so the timestamp-format failure branch of `parse` is
unreachable. -/
theorem claim_C9 :
    (∀ (mode : Mode) (i : Nat) (line g1 g2 g3 : List Char), i < 8 →
      mkExpr mode (dports.getD i 0) line = some (g1, g2, g3) →
      (splitOnChar ':' g1).length = 3 ∧
      (splitOnChar '.' ((splitOnChar ':' g1).getD 2 [])).length = 2 ∧
      ∃ v, str_to_ns g1 = some v) ∧
    (∀ (mode : Mode) (i : Nat) (lines : List (List Char)), i < 8 →
      parse (mkExpr mode (dports.getD i 0)) lines ≠ .error .tsFormat) := by
  constructor
  · intro mode i line g1 g2 g3 hi h
    exact matched_ts_ok (protoOf mode) (targetOf (dports.getD i 0)) line g1 g2 g3 h
  · intro mode i lines hi
    refine parseGo_no_tsFormat _ ?_ lines 0 []
    intro l g1 g2 g3 hml
    exact (matched_ts_ok (protoOf mode) (targetOf (dports.getD i 0)) l g1 g2 g3 hml).2.2

theorem claim_C9_witness :
    (splitOnChar ':' (("00:00:00.000000001").toList)).length = 3 ∧
    (splitOnChar '.' ((splitOnChar ':' (("00:00:00.000000001").toList)).getD 2 [])).length = 2 ∧
    ∃ v, str_to_ns (("00:00:00.000000001").toList) = some v :=
  claim_C9.1 Mode.host 0 lineZ1 (("00:00:00.000000001").toList) ['1'] ['1']
    (by omega) (by decide)

theorem claim_C2_witness :
    str_to_ns ('0' :: '1' :: ':' :: '0' :: '2' :: ':' :: '0' :: '3' :: '.' :: ['5']) =
      some ((digitsVal ['0', '1'] * 3600 + digitsVal ['0', '2'] * 60 + digitsVal ['0', '3'])
        * 1000000000 + digitsVal (ljust9 ['5'])) :=
  claim_C2.1 '0' '1' '0' '2' '0' '3' ['5'] (by decide) (by decide) (by decide)
    (by decide) (by decide) (by decide) (by decide) (by decide) (by decide)
